import Mathlib

/-!
Shallow embedding of `splearn/rdd.py` (the sparkit-learn blocking layer).

Modelling conventions:

* A container produced by `_pack_accumulated` (an `np.array` or an
  `sp.vstack` result) is modelled by the ordered list of its rows: both
  constructions stack the accumulated elements as consecutive rows, so a
  Batch is the list of the packed elements in packing order.
* A Spark RDD is modelled by the ordered list of its elements; where the
  per-partition structure matters (`mapPartitions`), by the list of its
  partitions, each an ordered list of elements.  The global element order
  is the concatenation of the partitions in partition order.
* A Python operation that raises is modelled with `Option` / `Except`.
  Spark's `map` is elementwise and a single raising element fails the
  whole (lazily evaluated) job, so elementwise maps whose body can raise
  are sequenced with `optMap`.
* The source file is Python 2 (`lambda (x, i)` parameters, `basestring`),
  so Python 2 comparison semantics apply: `None > 0` evaluates to
  `False`, and a `str` object has no `__iter__` attribute.
-/

/-- Elementwise map in which each element may raise; any raising element
fails the whole job.  Models `rdd.map(f)` for a possibly-raising `f`. -/
def optMap (f : α → Option β) : List α → Option (List β)
  | [] => some []
  | x :: xs =>
    match f x, optMap f xs with
    | some y, some ys => some (y :: ys)
    | _, _ => none

/-- Per-partition map in which each partition's computation may raise. -/
def exceptMap (f : α → Except String β) : List α → Except String (List β)
  | [] => .ok []
  | x :: xs =>
    match f x, exceptMap f xs with
    | .ok y, .ok ys => .ok (y :: ys)
    | .error e, _ => .error e
    | .ok _, .error e => .error e

/-- Model of `_pack_accumulated`: `np.array(accumulated)` and
`sp.vstack(accumulated)` both build a container whose rows are the
accumulated elements in order, and a Batch is modelled by that row
list. -/
def _pack_accumulated (accumulated : List α) : List α :=
  accumulated

/-- The flush test `block_size is not None and i >= block_size`. -/
def blockFull (block_size : Option Nat) (i : Nat) : Bool :=
  match block_size with
  | none => false
  | some b => decide (b ≤ i)

/-- Loop of `_block_collection`: the state is the remaining iterator, the
counter `i` and the buffer `accumulated`; the flush happens before the
element is appended, and the trailing `yield` always emits the final
buffer. -/
def _block_collection_go (block_size : Option Nat) :
    List α → Nat → List α → List (List α)
  | [], _, accumulated => [_pack_accumulated accumulated]
  | a :: rest, i, accumulated =>
    if blockFull block_size i then
      _pack_accumulated accumulated ::
        _block_collection_go block_size rest 1 [a]
    else
      _block_collection_go block_size rest (i + 1) (accumulated ++ [a])

/-- Model of `_block_collection`: pack one partition's iterator into
Batches, optionally capped at `block_size` elements. -/
def _block_collection (it : List α) (block_size : Option Nat) :
    List (List α) :=
  _block_collection_go block_size it 0 []

/-- `ArrayRDD._block`: run the element packer independently on every
partition. -/
def ArrayRDD_blockPartitions (pss : List (List α)) (block_size : Option Nat) :
    List (List (List α)) :=
  pss.map (fun p => _block_collection p block_size)

/-- `ArrayRDD.tolist`: `self._rdd.flatMap(lambda x: list(x))` — every
Batch expanded back into its elements in emission order, partitions in
partition order. -/
def ArrayRDD_tolist (blockedParts : List (List (List α))) : List α :=
  blockedParts.flatten.flatten

theorem _block_collection_go_join (block_size : Option Nat) :
    ∀ (xs : List α) (i : Nat) (acc : List α),
      (_block_collection_go block_size xs i acc).flatten = acc ++ xs := by
  intro xs
  induction xs with
  | nil =>
    intro i acc
    simp [_block_collection_go, _pack_accumulated]
  | cons a rest ih =>
    intro i acc
    by_cases h : blockFull block_size i
    · simp [_block_collection_go, h, _pack_accumulated, ih]
    · simp [_block_collection_go, h, ih]

theorem blocked_tolist_eq_join (pss : List (List α)) (block_size : Option Nat) :
    ArrayRDD_tolist (ArrayRDD_blockPartitions pss block_size) = pss.flatten := by
  induction pss with
  | nil => rfl
  | cons p ps ih =>
    simp only [ArrayRDD_blockPartitions, ArrayRDD_tolist, List.map_cons,
      List.flatten_cons, List.flatten_append] at *
    rw [ih, _block_collection, _block_collection_go_join]
    simp

/-- C1: feeding any non-empty sequence of elements (any partitioning) to
the element packer with any batch size — including the unset batch size —
and flattening the emitted Batches in emission order reproduces the
original sequence exactly, element for element, in order. -/
theorem blocked_tolist_roundtrip (pss : List (List α)) (block_size : Option Nat)
    (hne : pss.flatten ≠ []) :
    ArrayRDD_tolist (ArrayRDD_blockPartitions pss block_size) = pss.flatten :=
  blocked_tolist_eq_join pss block_size

/-- C1 witness: two partitions, batch size 2. -/
theorem blocked_tolist_roundtrip_witness :
    ArrayRDD_tolist (ArrayRDD_blockPartitions [[(1 : Nat), 2, 3], [4]] (some 2)) =
      [1, 2, 3, 4] :=
  blocked_tolist_roundtrip [[(1 : Nat), 2, 3], [4]] (some 2) (by decide)

theorem _block_collection_go_ne_nil (block_size : Option Nat) :
    ∀ (xs : List α) (i : Nat) (acc : List α),
      _block_collection_go block_size xs i acc ≠ [] := by
  intro xs
  induction xs with
  | nil =>
    intro i acc
    simp [_block_collection_go]
  | cons a rest ih =>
    intro i acc
    by_cases h : blockFull block_size i <;>
      simp [_block_collection_go, h, ih]

theorem _block_collection_go_sizes (B : Nat) (hB : 1 ≤ B) :
    ∀ (xs : List α) (i : Nat) (acc : List α),
      acc.length = i → i ≤ B → (acc ≠ [] ∨ xs ≠ []) →
      (∀ b ∈ (_block_collection_go (some B) xs i acc).dropLast,
          b.length = B) ∧
      (∀ b, (_block_collection_go (some B) xs i acc).getLast? = some b →
          1 ≤ b.length ∧ b.length ≤ B) := by
  intro xs
  induction xs with
  | nil =>
    intro i acc hlen hle hne
    have hacc : acc ≠ [] := by
      rcases hne with h | h
      · exact h
      · exact absurd rfl h
    constructor
    · intro b hb
      simp [_block_collection_go, _pack_accumulated] at hb
    · intro b hb
      simp [_block_collection_go, _pack_accumulated] at hb
      subst hb
      have : 0 < acc.length := List.length_pos.mpr hacc
      omega
  | cons a rest ih =>
    intro i acc hlen hle hne
    by_cases h : blockFull (some B) i
    · have hBi : B ≤ i := by
        simpa [blockFull] using h
      have hiB : i = B := Nat.le_antisymm hle hBi
      have haccB : acc.length = B := by omega
      obtain ⟨ihd, ihl⟩ := ih 1 [a] rfl hB (Or.inl (by simp))
      have hrest : _block_collection_go (some B) rest 1 [a] ≠ [] :=
        _block_collection_go_ne_nil (some B) rest 1 [a]
      obtain ⟨c, l2, hcl⟩ := List.exists_cons_of_ne_nil hrest
      constructor
      · intro b hb
        rw [_block_collection_go] at hb
        simp only [if_pos h] at hb
        rw [hcl] at hb
        simp only [_pack_accumulated, List.dropLast_cons₂] at hb
        rcases List.mem_cons.mp hb with hb | hb
        · rw [hb]; exact haccB
        · have := ihd b
          rw [hcl] at this
          exact this hb
      · intro b hb
        rw [_block_collection_go] at hb
        simp only [if_pos h] at hb
        rw [hcl] at hb
        simp only [_pack_accumulated, List.getLast?_cons_cons] at hb
        have := ihl b
        rw [hcl] at this
        exact this (by simpa [List.getLast?_cons_cons] using hb)
    · have hlt : i < B := by
        rcases Nat.lt_or_ge i B with hl | hg
        · exact hl
        · exact absurd (by simpa [blockFull] using hg) h
      have := ih (i + 1) (acc ++ [a]) (by simp [hlen]) (by omega)
        (Or.inl (by simp))
      rw [_block_collection_go]
      simpa only [if_neg h] using this

/-- C6: packing a non-empty partition with batch size B ≥ 1 yields Batches
all of leading dimension exactly B except possibly the last, whose
leading dimension lies in [1, B]. -/
theorem _block_collection_sizes (p : List α) (B : Nat)
    (hB : 1 ≤ B) (hp : p ≠ []) :
    (∀ b ∈ (_block_collection p (some B)).dropLast, b.length = B) ∧
    (∀ b, (_block_collection p (some B)).getLast? = some b →
        1 ≤ b.length ∧ b.length ≤ B) :=
  _block_collection_go_sizes B hB p 0 [] rfl (by omega) (Or.inr hp)

/-- C6 witness: five elements with batch size 2 — full Batches of 2 and a
final Batch of length 1. -/
theorem _block_collection_sizes_witness :
    (∀ b ∈ (_block_collection [(10 : Nat), 20, 30, 40, 50] (some 2)).dropLast,
        b.length = 2) ∧
    (∀ b, (_block_collection [(10 : Nat), 20, 30, 40, 50] (some 2)).getLast? =
          some b → 1 ≤ b.length ∧ b.length ≤ 2) :=
  _block_collection_sizes [(10 : Nat), 20, 30, 40, 50] 2 (by decide) (by decide)

/-- The body of `for x_j, x in zip(tuple_i, blocked_tuple): x.append(x_j)`:
`zip` truncates at the shorter argument, and buffers beyond the current
tuple's arity stay untouched. -/
def btAppend (tuple_i : List β) (blocked_tuple : List (List β)) :
    List (List β) :=
  List.zipWith (fun x buf => buf ++ [x]) tuple_i blocked_tuple ++
    blocked_tuple.drop tuple_i.length

/-- Loop of `_block_tuple` after `blocked_tuple` has been allocated: on a
flush the buffers are re-allocated from the current tuple's arity, and the
trailing `yield` packs all buffers. -/
def _block_tuple_go (block_size : Option Nat) :
    List (List β) → Nat → List (List β) → List (List (List β))
  | [], _, blocked_tuple => [blocked_tuple.map _pack_accumulated]
  | tuple_i :: rest, i, blocked_tuple =>
    if blockFull block_size i then
      blocked_tuple.map _pack_accumulated ::
        _block_tuple_go block_size rest 1
          (btAppend tuple_i (tuple_i.map (fun _ => [])))
    else
      _block_tuple_go block_size rest (i + 1) (btAppend tuple_i blocked_tuple)

/-- Model of `_block_tuple`.  On an empty iterator `blocked_tuple` is
still `None` at the trailing `yield`, so `tuple(... for x in None)`
raises a `TypeError`; on a non-empty iterator the buffers are allocated
from the first tuple's arity before the first loop body runs. -/
def _block_tuple (it : List (List β)) (block_size : Option Nat) :
    Except String (List (List (List β))) :=
  match it with
  | [] => .error "TypeError: NoneType object is not iterable"
  | tuple0 :: _ =>
    .ok (_block_tuple_go block_size it 0 (tuple0.map (fun _ => [])))

/-- C4 counterexample: on an empty partition the element packer emits one
Batch (the pack of the empty buffer) instead of none, and the tuple
packer raises instead of yielding nothing. -/
theorem empty_partition_emits_batch :
    _block_collection ([] : List Nat) none = [_pack_accumulated []] ∧
    (_block_collection ([] : List Nat) none).length = 1 ∧
    _block_tuple ([] : List (List Nat)) none =
      .error "TypeError: NoneType object is not iterable" :=
  ⟨rfl, rfl, rfl⟩

/-- C4 amended: for every empty partition and every batch size, the
element packer emits exactly one Batch — `_pack_accumulated` applied to
the empty buffer — and the tuple packer fails with a `TypeError` because
its buffers were never allocated. -/
theorem empty_partition_behavior (block_size : Option Nat) :
    _block_collection ([] : List α) block_size = [_pack_accumulated []] ∧
    _block_tuple ([] : List (List α)) block_size =
      .error "TypeError: NoneType object is not iterable" :=
  ⟨rfl, rfl⟩

/-- `ArrayRDD` in its blocked state: `_rdd` is the global ordered
sequence of Batches (partitions concatenated — `zipWithIndex`, `count`,
`first`, `map` and `filter` all act on exactly this sequence). -/
structure ArrayRDD (α : Type) where
  blocks : List (List α)
  deriving DecidableEq

/-- Spark `zipWithIndex` starting at a given offset: pair every element
with its global position. -/
def zipWithIndexFrom : Nat → List β → List (β × Nat)
  | _, [] => []
  | n, x :: xs => (x, n) :: zipWithIndexFrom (n + 1) xs

/-- `ArrayRDD.count` (delegated through `__getattr__` to `RDD.count`):
the number of Batches, not of elements. -/
def ArrayRDD.count (r : ArrayRDD α) : Nat :=
  r.blocks.length

/-- `ArrayRDD.__len__` via `shape`: `self.first().shape` raises on an
empty rdd, then the Batches' leading dimensions are summed with
`reduce(operator.add)`. -/
def ArrayRDD.len (r : ArrayRDD α) : Except String Nat :=
  match r.blocks with
  | [] => .error "ValueError: RDD is empty"
  | _ => .ok ((r.blocks.map List.length).foldl (· + ·) 0)

/-- `ArrayRDD.__getitem__` with an `int` key: `zipWithIndex`, keep the
pairs whose index equals the key, then `.first()[0]` — `first` raises
when nothing matched. -/
def ArrayRDD.getitemInt (r : ArrayRDD α) (key : Int) :
    Except String (List α) :=
  match (zipWithIndexFrom 0 r.blocks).filter
      (fun p => decide ((p.2 : Int) = key)) with
  | [] => .error "ValueError: RDD is empty"
  | p :: _ => .ok p.1

theorem zipWithIndexFrom_filter_lt (key : Int) :
    ∀ (l : List β) (n : Nat), key < n →
      (zipWithIndexFrom n l).filter
        (fun p => decide ((p.2 : Int) = key)) = [] := by
  intro l
  induction l with
  | nil => intro n _; rfl
  | cons x xs ih =>
    intro n hk
    have hne : ¬ ((n : Int) = key) := by omega
    simp only [zipWithIndexFrom, List.filter_cons]
    rw [if_neg (by simpa using hne)]
    exact ih (n + 1) (by omega)

theorem zipWithIndexFrom_filter_ge (key : Int) :
    ∀ (l : List β) (n : Nat), ((n + l.length : Nat) : Int) ≤ key →
      (zipWithIndexFrom n l).filter
        (fun p => decide ((p.2 : Int) = key)) = [] := by
  intro l
  induction l with
  | nil => intro n _; rfl
  | cons x xs ih =>
    intro n hk
    have hk2 : ((n : Int) + xs.length + 1) ≤ key := by
      push_cast at hk
      simp only [List.length_cons] at hk
      push_cast at hk
      omega
    have hne : ¬ ((n : Int) = key) := by omega
    simp only [zipWithIndexFrom, List.filter_cons]
    rw [if_neg (by simpa using hne)]
    refine ih (n + 1) ?_
    push_cast
    omega

theorem zipWithIndexFrom_filter_get :
    ∀ (l : List β) (n j : Nat) (h : j < l.length),
      (zipWithIndexFrom n l).filter
          (fun p => decide ((p.2 : Int) = ((n + j : Nat) : Int))) =
        [(l.get ⟨j, h⟩, n + j)] := by
  intro l
  induction l with
  | nil =>
    intro n j h
    simp at h
  | cons x xs ih =>
    intro n j h
    cases j with
    | zero =>
      have htl := zipWithIndexFrom_filter_lt ((n + 0 : Nat) : Int) xs (n + 1)
        (by push_cast; omega)
      simp only [zipWithIndexFrom, List.filter_cons]
      rw [if_pos (by simp), htl]
      simp
    | succ j2 =>
      have hne : ¬ ((n : Int) = ((n + (j2 + 1) : Nat) : Int)) := by
        push_cast
        omega
      have harith : n + (j2 + 1) = (n + 1) + j2 := by omega
      simp only [zipWithIndexFrom, List.filter_cons]
      rw [if_neg (by simpa using hne), harith]
      exact ih (n + 1) j2 (by simpa using h)

/-- C2 amended: `__getitem__(i)` indexes Batches, not Elements — for
0 ≤ i < the number of Batches it returns the i-th Batch, and outside that
range (including every position in [blocks, len) whenever Batches hold
more than one Element) it raises `first`'s empty-RDD error. -/
theorem ArrayRDD_getitemInt_spec (r : ArrayRDD α) (key : Int) :
    (∀ h : key.toNat < r.blocks.length ∧ 0 ≤ key,
        r.getitemInt key = .ok (r.blocks.get ⟨key.toNat, h.1⟩)) ∧
    ((key < 0 ∨ (r.blocks.length : Int) ≤ key) →
        r.getitemInt key = .error "ValueError: RDD is empty") := by
  constructor
  · rintro ⟨hlt, hnn⟩
    have hkey : ((0 + key.toNat : Nat) : Int) = key := by
      push_cast
      omega
    have hfil := zipWithIndexFrom_filter_get r.blocks 0 key.toNat hlt
    rw [hkey] at hfil
    rw [ArrayRDD.getitemInt, hfil]
  · intro hout
    rcases hout with hneg | hge
    · have hfil := zipWithIndexFrom_filter_lt key r.blocks 0 (by omega)
      rw [ArrayRDD.getitemInt, hfil]
    · have hfil := zipWithIndexFrom_filter_ge key r.blocks 0 (by push_cast; omega)
      rw [ArrayRDD.getitemInt, hfil]

/-- C2 amended witness: index 1 returns the second Batch, index -1
raises. -/
theorem ArrayRDD_getitemInt_spec_witness :
    (ArrayRDD.mk [[(10 : Nat), 20], [30, 40]]).getitemInt 1 = .ok [30, 40] ∧
    (ArrayRDD.mk [[(10 : Nat), 20], [30, 40]]).getitemInt (-1) =
      .error "ValueError: RDD is empty" := by
  constructor
  · exact (ArrayRDD_getitemInt_spec (ArrayRDD.mk [[(10 : Nat), 20], [30, 40]]) 1).1
      ⟨by decide, by decide⟩
  · exact (ArrayRDD_getitemInt_spec (ArrayRDD.mk [[(10 : Nat), 20], [30, 40]]) (-1)).2
      (Or.inl (by decide))

/-- C2 counterexample: a collection of 4 elements in 2 Batches — the
claim requires `collection[3]` to return the fourth element, but the code
raises, and `collection[1]` returns a whole Batch rather than the single
element 20. -/
theorem getitem_not_elementwise :
    (ArrayRDD.mk [[(10 : Nat), 20], [30, 40]]).len = .ok 4 ∧
    (ArrayRDD.mk [[(10 : Nat), 20], [30, 40]]).getitemInt 3 =
      .error "ValueError: RDD is empty" ∧
    (ArrayRDD.mk [[(10 : Nat), 20], [30, 40]]).getitemInt 1 = .ok [30, 40] :=
  ⟨rfl, rfl, rfl⟩

/-- A Python `slice` object: each of the three fields may be `None`. -/
structure PySlice where
  start : Option Int
  stop : Option Int
  step : Option Int

/-- Continuation test of a `range` walk: `cur < stop` for a positive
step, `cur > stop` for a negative one. -/
def stepTest (step stop cur : Int) : Bool :=
  if 0 < step then decide (cur < stop) else decide (stop < cur)

/-- Fuelled arithmetic progression: the successive values produced by
`range(n)[slice]` starting at `cur`. -/
def rangeStepGo (step stop : Int) : Nat → Int → List Int
  | 0, _ => []
  | fuel + 1, cur =>
    if stepTest step stop cur then
      cur :: rangeStepGo step stop fuel (cur + step)
    else []

/-- CPython slice resolution (`slice.indices`) followed by
materialisation: the index list `range(n)[s]`.  A zero step raises; the
fuel `n + 1` dominates the walk because start and stop are clamped into
[-1, n]. -/
def pySliceIndices (n : Nat) (s : PySlice) : Except String (List Int) :=
  let step := s.step.getD 1
  if step = 0 then .error "ValueError: slice step cannot be zero"
  else
    let lower : Int := if step < 0 then -1 else 0
    let upper : Int := if step < 0 then (n : Int) - 1 else (n : Int)
    let start :=
      match s.start with
      | none => if step < 0 then upper else lower
      | some v => if v < 0 then max (v + n) lower else min v upper
    let stop :=
      match s.stop with
      | none => if step < 0 then lower else upper
      | some v => if v < 0 then max (v + n) lower else min v upper
    .ok (rangeStepGo step stop (n + 1) start)

/-- Python 2 evaluation of `key.step > 0`: `None` compares below every
integer, so the default step compares as not-greater. -/
def pyStepGtZero : Option Int → Bool
  | none => false
  | some v => decide (0 < v)

/-- Insertion of one element into a list sorted by a Bool order. -/
def insertOrd (le : β → β → Bool) (a : β) : List β → List β
  | [] => [a]
  | b :: bs => if le a b then a :: b :: bs else b :: insertOrd le a bs

/-- Model of `RDD.sortBy` (insertion sort; the sort keys here are the
pairwise-distinct `zipWithIndex` indices, so the sorted permutation is
unique and any correct sort realises it). -/
def sortOrd (le : β → β → Bool) : List β → List β
  | [] => []
  | a :: as => insertOrd le a (sortOrd le as)

/-- `ArrayRDD.__getitem__` with a slice key:
`indices = range(self.count())[key]`, `ascending = key.step > 0`
(Python 2 semantics), then filter the index-tagged Batches to the index
set and sort by index in the requested direction. -/
def ArrayRDD.getitemSlice (r : ArrayRDD α) (key : PySlice) :
    Except String (List (List α)) :=
  match pySliceIndices r.count key with
  | .error e => .error e
  | .ok indices =>
    let ascending := pyStepGtZero key.step
    let sel := (zipWithIndexFrom 0 r.blocks).filter
      (fun p => decide ((p.2 : Int) ∈ indices))
    let sorted := sortOrd
      (fun p q =>
        if ascending then decide (p.2 ≤ q.2) else decide (q.2 ≤ p.2)) sel
    .ok (sorted.map Prod.fst)

/-- C3 evaluated at the failing input: the full default slice `X[:]`
returns the Batches in descending position order (because Python 2
evaluates `None > 0` to `False`), while the same index set with an
explicit step 1 returns them ascending. -/
theorem slice_default_step_descending :
    (ArrayRDD.mk [[(1 : Nat)], [2], [3]]).getitemSlice
        (PySlice.mk none none none) = .ok [[3], [2], [1]] ∧
    (ArrayRDD.mk [[(1 : Nat)], [2], [3]]).getitemSlice
        (PySlice.mk none none (some 1)) = .ok [[1], [2], [3]] ∧
    (ArrayRDD.mk [[(1 : Nat)], [2], [3]]).getitemSlice
        (PySlice.mk none none (some (-1))) = .ok [[3], [2], [1]] := by
  refine ⟨?_, ?_, ?_⟩ <;> rfl

/-- Python `list.index`: position of the first occurrence, `None`
modelling the `ValueError` when absent. -/
def pyListIndex (k : String) : List String → Option Nat
  | [] => none
  | c :: cs => if c = k then some 0 else (pyListIndex k cs).map (· + 1)

theorem pyListIndex_mem (k : String) :
    ∀ (l : List String), k ∈ l →
      ∃ i, pyListIndex k l = some i ∧ i < l.length := by
  intro l
  induction l with
  | nil => intro h; simp at h
  | cons c cs ih =>
    intro h
    by_cases hc : c = k
    · exact ⟨0, by simp [pyListIndex, hc], by simp⟩
    · have hk : k ∈ cs := by
        rcases List.mem_cons.mp h with h1 | h1
        · exact absurd h1.symm hc
        · exact h1
      obtain ⟨i, hi, hlt⟩ := ih hk
      refine ⟨i + 1, by simp [pyListIndex, hc, hi], ?_⟩
      simp only [List.length_cons]
      omega

theorem optMap_some (f : α → Option β) :
    ∀ (l : List α), (∀ x ∈ l, (f x).isSome) →
      ∃ l2, optMap f l = some l2 ∧ l2.length = l.length ∧
        ∀ (j : Nat) (x : α), l[j]? = some x → l2[j]? = f x := by
  intro l
  induction l with
  | nil =>
    intro _
    exact ⟨[], rfl, rfl, by intro j x hx; simp at hx⟩
  | cons a as ih =>
    intro h
    obtain ⟨y, hy⟩ : ∃ y, f a = some y :=
      Option.isSome_iff_exists.mp (h a (by simp))
    obtain ⟨l2, hl2, hlen, hpt⟩ := ih (fun x hx => h x (by simp [hx]))
    refine ⟨y :: l2, by simp [optMap, hy, hl2], by simp [hlen], ?_⟩
    intro j x hx
    cases j with
    | zero =>
      simp only [List.getElem?_cons_zero, Option.some.injEq] at hx
      subst hx
      simpa using hy.symm
    | succ j2 =>
      simp only [List.getElem?_cons_succ] at hx ⊢
      exact hpt j2 x hx

/-- `TupleRDD.__getitem__` with an iterable key: per Columnar Batch,
`tuple(x[i] for i in key)`; an out-of-range position raises
`IndexError`. -/
def TupleRDD_getitemIter (blocks : List (List γ)) (indices : List Nat) :
    Option (List (List γ)) :=
  optMap (fun x => optMap (fun i => x[i]?) indices) blocks

/-- `TupleRDD.__getitem__` with a single position: map every Columnar
Batch to its `key`-th field, degrading to a plain `ArrayRDD`. -/
def TupleRDD_getitemPos (blocks : List (List γ)) (i : Nat) :
    Option (List γ) :=
  optMap (fun x => x[i]?) blocks

/-- `TupleRDD.transform` with a `column` argument: the mapper
`lambda x: x[:column] + (f(x[column]),) + x[column + 1:]` applied to
every Columnar Batch (slicing clamps, `x[column]` raises when out of
range). -/
def TupleRDD_transformCol (blocks : List (List γ)) (f : γ → γ)
    (column : Nat) : Option (List (List γ)) :=
  optMap (fun x => (x[column]?).map
    (fun v => x.take column ++ [f v] ++ x.drop (column + 1))) blocks

theorem splice_length (b : List γ) (c : Nat) (hc : c < b.length) (v : γ) :
    (b.take c ++ [v] ++ b.drop (c + 1)).length = b.length := by
  simp only [List.length_append, List.length_take, List.length_drop,
    List.length_cons, List.length_nil]
  omega

theorem splice_getElem_self (b : List γ) (c : Nat) (hc : c < b.length)
    (v : γ) : (b.take c ++ [v] ++ b.drop (c + 1))[c]? = some v := by
  have htake : (b.take c).length = c := by
    simp only [List.length_take]
    omega
  rw [List.append_assoc, List.getElem?_append, if_neg (by rw [htake]; omega)]
  simp [htake]

theorem splice_getElem_other (b : List γ) (c : Nat) (hc : c < b.length)
    (v : γ) (i : Nat) (hi : i ≠ c) :
    (b.take c ++ [v] ++ b.drop (c + 1))[i]? = b[i]? := by
  have htake : (b.take c).length = c := by
    simp only [List.length_take]
    omega
  rcases Nat.lt_or_ge i c with hlt | hge
  · have h1 : i < c + 1 := by omega
    simp [List.getElem?_append, htake, List.getElem?_take, hlt, h1]
  · have hgt : c < i := by omega
    have h1 : ¬ i < c + 1 := by omega
    have h2 : ¬ i < c := by omega
    simp only [List.getElem?_append, List.length_append, htake,
      List.length_cons, List.length_nil, h1, h2, if_false, ite_false,
      List.getElem?_drop]
    congr 1
    omega

/-- C9: `transform(f, column=c)` applies `f` to exactly field c of every
Columnar Batch while all other fields pass through unchanged per
row-block, and the result is a fresh collection — the input blocks are
not modified (the mapper builds a new tuple; in this pure embedding the
input list is untouched by construction). -/
theorem TupleRDD_transformCol_spec (blocks : List (List γ)) (f : γ → γ)
    (c : Nat) (har : ∀ b ∈ blocks, c < b.length) :
    ∃ blocks2, TupleRDD_transformCol blocks f c = some blocks2 ∧
      blocks2.length = blocks.length ∧
      ∀ (j : Nat) (b : List γ), blocks[j]? = some b →
        ∃ b2, blocks2[j]? = some b2 ∧ b2.length = b.length ∧
          b2[c]? = (b[c]?).map f ∧
          ∀ i, i ≠ c → b2[i]? = b[i]? := by
  have hsome : ∀ b ∈ blocks,
      ((fun x => (x[c]?).map
        (fun v => x.take c ++ [f v] ++ x.drop (c + 1))) b).isSome := by
    intro b hb
    have hc := har b hb
    simp only [List.getElem?_eq_getElem hc]
    rfl
  obtain ⟨blocks2, hmap, hlen, hpt⟩ := optMap_some _ blocks hsome
  refine ⟨blocks2, hmap, hlen, ?_⟩
  intro j b hb
  have hmem : b ∈ blocks := List.getElem?_mem hb
  have hc : c < b.length := har b hmem
  have hj := hpt j b hb
  rw [List.getElem?_eq_getElem hc] at hj
  refine ⟨b.take c ++ [f b[c]] ++ b.drop (c + 1), by simpa using hj, ?_, ?_, ?_⟩
  · exact splice_length b c hc _
  · rw [splice_getElem_self b c hc _, List.getElem?_eq_getElem hc]
    rfl
  · intro i hi
    exact splice_getElem_other b c hc _ i hi

/-- C9 witness: one Columnar Batch of two fields; `f` prepends 0 to field
1 only. -/
theorem TupleRDD_transformCol_spec_witness :
    ∃ blocks2,
      TupleRDD_transformCol ([[[1], [2]]] : List (List (List Nat)))
          (fun l => 0 :: l) 1 = some blocks2 ∧
      blocks2.length = ([[[1], [2]]] : List (List (List Nat))).length ∧
      ∀ (j : Nat) (b : List (List Nat)),
        ([[[1], [2]]] : List (List (List Nat)))[j]? = some b →
        ∃ b2, blocks2[j]? = some b2 ∧ b2.length = b.length ∧
          b2[1]? = (b[1]?).map (fun l => 0 :: l) ∧
          ∀ i, i ≠ 1 → b2[i]? = b[i]? :=
  TupleRDD_transformCol_spec [[[1], [2]]] (fun l => 0 :: l) 1 (by decide)

/-- `DictRDD` state: the blocked rdd of Columnar Batches (each Batch a
tuple of per-field blocks, tuples modelled as lists) together with the
stored `_cols` schema tuple. -/
structure DictRDD (γ : Type) where
  blocks : List (List γ)
  cols : List String
  deriving DecidableEq

/-- `DictRDD.__init__` applied to an already-blocked collection: the
column names are an iterable of strings by construction here; the arity
check compares `len(columns)` with `len(self.first())`, raising on an
empty rdd, then the schema tuple is stored. -/
def DictRDD.make (blocks : List (List γ)) (columns : List String) :
    Except String (DictRDD γ) :=
  match blocks with
  | [] => .error "ValueError: RDD is empty"
  | b :: _ =>
    if columns.length = b.length then .ok (DictRDD.mk blocks columns)
    else .error "Number of values doesn't match with columns!"

/-- A `DictRDD.__getitem__` key: Python 2 distinguishes a `str`, which
has no `__iter__` attribute, from a genuinely iterable key. -/
inductive DKey where
  | str : String → DKey
  | list : List String → DKey

/-- Python `tuple(key)`: the tuple of a string is its sequence of
one-character strings; the tuple of a list is the list itself. -/
def DKey.toTuple : DKey → List String
  | .str s => s.data.map (fun c => String.mk [c])
  | .list l => l

/-- Result of `DictRDD.__getitem__`: the identity and projection cases
return a `DictRDD`; a single-name key degrades to a plain `ArrayRDD`
holding the selected field's blocks. -/
inductive DictGetResult (γ : Type) where
  | dict : DictRDD γ → DictGetResult γ
  | array : List γ → DictGetResult γ
  deriving DecidableEq

/-- `DictRDD.__getitem__`: first the `tuple(key) == self._cols` identity
check; an iterable key resolves every name to its position, projects the
tuples and re-wraps with the requested names; a plain string key (not
iterable in Python 2) projects a single column. -/
def DictRDD.getitem (d : DictRDD γ) (key : DKey) :
    Except String (DictGetResult γ) :=
  if DKey.toTuple key = d.cols then .ok (.dict d)
  else
    match key with
    | .list ks =>
      match optMap (fun k => pyListIndex k d.cols) ks with
      | none => .error "ValueError: key is not in list"
      | some indices =>
        match TupleRDD_getitemIter d.blocks indices with
        | none => .error "IndexError: tuple index out of range"
        | some blocks2 =>
          match DictRDD.make blocks2 ks with
          | .error e => .error e
          | .ok d2 => .ok (.dict d2)
    | .str k =>
      match pyListIndex k d.cols with
      | none => .error "ValueError: key is not in list"
      | some i =>
        match TupleRDD_getitemPos d.blocks i with
        | none => .error "IndexError: tuple index out of range"
        | some bs => .ok (.array bs)

/-- `DictRDD.columns`. -/
def DictRDD.columns (d : DictRDD γ) : List String :=
  d.cols

theorem pyListIndex_lt (k : String) :
    ∀ (l : List String) (i : Nat), pyListIndex k l = some i →
      i < l.length := by
  intro l
  induction l with
  | nil =>
    intro i h
    simp [pyListIndex] at h
  | cons c cs ih =>
    intro i h
    by_cases hc : c = k
    · simp only [pyListIndex, if_pos hc, Option.some.injEq] at h
      subst h
      simp
    · simp only [pyListIndex, if_neg hc, Option.map_eq_some'] at h
      obtain ⟨i2, hi2, hadd⟩ := h
      have := ih i2 hi2
      simp only [List.length_cons]
      omega

/-- C8: for a `DictRDD` whose Columnar Batches all carry the schema's
arity, indexing with a key equal to the stored schema tuple returns the
collection itself, and indexing with any permutation P of the schema
succeeds and yields a collection whose `columns` equals P. -/
theorem DictRDD_getitem_perm (d : DictRDD γ) (P : List String)
    (hbne : d.blocks ≠ [])
    (har : ∀ b ∈ d.blocks, b.length = d.cols.length)
    (hperm : P.Perm d.cols) :
    d.getitem (.list d.cols) = .ok (.dict d) ∧
    ∃ d2, d.getitem (.list P) = .ok (.dict d2) ∧ d2.columns = P := by
  constructor
  · simp [DictRDD.getitem, DKey.toTuple]
  · by_cases hP : P = d.cols
    · subst hP
      exact ⟨d, by simp [DictRDD.getitem, DKey.toTuple], rfl⟩
    · have hidx : ∀ k ∈ P, ((fun k => pyListIndex k d.cols) k).isSome := by
        intro k hk
        obtain ⟨i, hi, _⟩ := pyListIndex_mem k d.cols (hperm.subset hk)
        simp [hi]
      obtain ⟨indices, hind, hindlen, hindpt⟩ := optMap_some _ P hidx
      have hibound : ∀ i ∈ indices, i < d.cols.length := by
        intro i hi
        obtain ⟨j, hj⟩ := List.getElem?_of_mem hi
        have hjlt : j < P.length := by
          have : j < indices.length := by
            by_contra hcon
            rw [List.getElem?_eq_none (by omega)] at hj
            exact Option.noConfusion hj
          omega
        obtain ⟨k, hk⟩ : ∃ k, P[j]? = some k :=
          ⟨P[j], List.getElem?_eq_getElem hjlt⟩
        have := hindpt j k hk
        rw [hj] at this
        exact pyListIndex_lt k d.cols i this.symm
      have hblk : ∀ x ∈ d.blocks,
          ((fun x => optMap (fun i => x[i]?) indices) x).isSome := by
        intro x hx
        have hxlen := har x hx
        have hsome2 : ∀ i ∈ indices, ((fun i => x[i]?) i).isSome := by
          intro i hi
          have hilt : i < x.length := by
            rw [hxlen]
            exact hibound i hi
          simp [List.getElem?_eq_getElem hilt]
        obtain ⟨y, hy, _, _⟩ := optMap_some _ indices hsome2
        simp [hy]
      obtain ⟨blocks2, hblocks2, hblen, hbpt⟩ := optMap_some _ d.blocks hblk
      obtain ⟨b0, rest, hb0⟩ := List.exists_cons_of_ne_nil hbne
      have hb0get : d.blocks[0]? = some b0 := by rw [hb0]; simp
      have hb0mem : b0 ∈ d.blocks := by rw [hb0]; simp
      have hb0len := har b0 hb0mem
      have hsome3 : ∀ i ∈ indices, ((fun i => b0[i]?) i).isSome := by
        intro i hi
        have hilt : i < b0.length := by
          rw [hb0len]
          exact hibound i hi
        simp [List.getElem?_eq_getElem hilt]
      obtain ⟨y0, hy0, hy0len, _⟩ := optMap_some _ indices hsome3
      have h2 := hbpt 0 b0 hb0get
      rw [hy0] at h2
      obtain ⟨c0, crest, hc⟩ : ∃ c0 crest, blocks2 = c0 :: crest := by
        cases hbl : blocks2 with
        | nil =>
          rw [hbl] at h2
          simp at h2
        | cons c0 crest => exact ⟨c0, crest, rfl⟩
      have hc0 : c0 = y0 := by
        rw [hc] at h2
        simpa using h2
      have hident : ¬ (DKey.toTuple (.list P) = d.cols) := by
        simpa [DKey.toTuple] using hP
      have hgi : TupleRDD_getitemIter d.blocks indices = some blocks2 :=
        hblocks2
      refine ⟨DictRDD.mk blocks2 P, ?_, rfl⟩
      rw [DictRDD.getitem, if_neg hident]
      simp only [hind, hgi, hc, DictRDD.make]
      rw [if_pos (by rw [hc0, hy0len, hindlen])]

/-- C8 witness: schema (x, y), permutation (y, x). -/
theorem DictRDD_getitem_perm_witness :
    (DictRDD.mk ([[1, 2]] : List (List Nat)) ["x", "y"]).getitem
        (.list ["x", "y"]) =
      .ok (.dict (DictRDD.mk ([[1, 2]] : List (List Nat)) ["x", "y"])) ∧
    ∃ d2, (DictRDD.mk ([[1, 2]] : List (List Nat)) ["x", "y"]).getitem
        (.list ["y", "x"]) = .ok (.dict d2) ∧ d2.columns = ["y", "x"] :=
  DictRDD_getitem_perm (DictRDD.mk ([[1, 2]] : List (List Nat)) ["x", "y"])
    ["y", "x"] (by decide) (by decide) (by decide)

theorem toTuple_concat (cols : List String)
    (h : ∀ s ∈ cols, s.length = 1) :
    ((cols.map String.data).flatten).map (fun c => String.mk [c]) = cols := by
  induction cols with
  | nil => rfl
  | cons s rest ih =>
    have hlen : s.data.length = 1 := h s (by simp)
    obtain ⟨c, hc⟩ := List.length_eq_one.mp hlen
    have hs : s = String.mk [c] := by
      cases s
      exact congrArg String.mk hc
    simp only [List.map_cons, List.flatten_cons, List.map_append, hc]
    rw [ih (fun t ht => h t (by simp [ht]))]
    simp [hs]

/-- C10: for a schema of single-character column names, indexing with the
single string obtained by concatenating those characters in schema order
hits the `tuple(key) == self._cols` identity branch — the tuple of a
string is its character sequence — and returns the whole collection,
rather than failing with an unknown-column error. -/
theorem DictRDD_getitem_concat_str (d : DictRDD γ)
    (h1 : ∀ s ∈ d.cols, s.length = 1) :
    d.getitem (.str (String.mk ((d.cols.map String.data).flatten))) =
      .ok (.dict d) := by
  have hkey : DKey.toTuple
      (.str (String.mk ((d.cols.map String.data).flatten))) = d.cols := by
    simp only [DKey.toTuple]
    exact toTuple_concat d.cols h1
  rw [DictRDD.getitem, if_pos hkey]

/-- C10 witness: schema (x, y) and key string xy. -/
theorem DictRDD_getitem_concat_str_witness :
    (DictRDD.mk ([[1, 2]] : List (List Nat)) ["x", "y"]).getitem
        (.str (String.mk (((["x", "y"] : List String).map
          String.data).flatten))) =
      .ok (.dict (DictRDD.mk ([[1, 2]] : List (List Nat)) ["x", "y"])) :=
  DictRDD_getitem_concat_str
    (DictRDD.mk ([[1, 2]] : List (List Nat)) ["x", "y"]) (by decide)

/-- Dynamic Python values flowing through the dispatcher pipeline.  A
dict item `(k, v)` is itself a Python tuple object, modelled by
`PyVal.pair`. -/
inductive PyVal where
  | int : Int → PyVal
  | str : String → PyVal
  | pair : PyVal → PyVal → PyVal
  deriving DecidableEq

/-- A raw record of the source rdd, as inspected by `block`: a dict (its
list order is the dict's own iteration order, shared by `keys()` and
`items()`), a tuple, or any other object. -/
inductive PyObj where
  | dict : List (String × PyVal) → PyObj
  | tup : List PyVal → PyObj
  | plain : PyVal → PyObj
  deriving DecidableEq

/-- `x.items()`: defined only on dicts; every item is a `(key, value)`
pair object, in the dict's iteration order. -/
def PyObj.items : PyObj → Option (List PyVal)
  | .dict l => some (l.map (fun kv => PyVal.pair (.str kv.1) kv.2))
  | _ => none

/-- A record viewed as the tuple iterated by the tuple packer. -/
def PyObj.asTuple : PyObj → Option (List PyVal)
  | .tup l => some l
  | _ => none

/-- Result of the `block` dispatcher.  `unblocked` carries the original
input partitions; the three wrapped variants carry the blocked rdd — the
`DictRDD` and `tupleResult` hold the global sequence of Columnar Batches
(partitions concatenated), `arrayResult` the per-partition Batch
lists. -/
inductive BlockResult where
  | unblocked : List (List PyObj) → BlockResult
  | dictResult : DictRDD (List PyVal) → BlockResult
  | tupleResult : List (List (List PyVal)) → BlockResult
  | arrayResult : List (List (List PyObj)) → BlockResult
  deriving DecidableEq

/-- Model of `block`: peek at the first element (the `IndexError` of
`rdd.first()` on an empty rdd is caught and the input returned
unchanged), then dispatch on the runtime type of that element.  The dict
branch maps every record through `x.items()` and builds a `DictRDD` with
`columns=entry.keys()` and the default (unset) batch size; the tuple
branch builds a `TupleRDD` with the given batch size; anything else is
packed by the element packer into an `ArrayRDD`. -/
def pyBlock (pss : List (List PyObj)) (block_size : Option Nat) :
    Except String BlockResult :=
  match pss.flatten.head? with
  | none => .ok (.unblocked pss)
  | some entry =>
    match entry with
    | .dict d =>
      match optMap (fun p => optMap PyObj.items p) pss with
      | none => .error "AttributeError: object has no attribute items"
      | some recordParts =>
        match exceptMap (fun p => _block_tuple p none) recordParts with
        | .error e => .error e
        | .ok blockedParts =>
          match DictRDD.make blockedParts.flatten (d.map Prod.fst) with
          | .error e => .error e
          | .ok dr => .ok (.dictResult dr)
    | .tup _ =>
      match optMap (fun p => optMap PyObj.asTuple p) pss with
      | none => .error "TypeError: object is not a tuple"
      | some tupleParts =>
        match exceptMap (fun p => _block_tuple p block_size) tupleParts with
        | .error e => .error e
        | .ok blockedParts => .ok (.tupleResult blockedParts.flatten)
    | .plain _ =>
      .ok (.arrayResult (pss.map (fun p => _block_collection p block_size)))

/-- C7: when the source collection has zero elements the dispatcher
returns the original unwrapped input unchanged, raises nothing, and
applies no Batch wrapping. -/
theorem pyBlock_empty (pss : List (List PyObj)) (block_size : Option Nat)
    (h : pss.flatten = []) :
    pyBlock pss block_size = .ok (.unblocked pss) := by
  rw [pyBlock, h]
  rfl

/-- C7 witness: two empty partitions with a batch size set. -/
theorem pyBlock_empty_witness :
    pyBlock [[], []] (some 2) = .ok (.unblocked [[], []]) :=
  pyBlock_empty [[], []] (some 2) rfl

/-- C5 counterexample: one record `dict x:1 y:2`.  The dispatcher packs
the record's `items()` — `(key, value)` pair objects — while the claim
requires the bare value tuple `(1, 2)`; the two resulting collections
differ. -/
theorem block_dict_packs_items :
    pyBlock [[.dict [("x", .int 1), ("y", .int 2)]]] none =
      .ok (.dictResult (DictRDD.mk
        [[[.pair (.str "x") (.int 1)], [.pair (.str "y") (.int 2)]]]
        ["x", "y"])) ∧
    (DictRDD.mk
        [[[.pair (.str "x") (.int 1)], [.pair (.str "y") (.int 2)]]]
        ["x", "y"] : DictRDD (List PyVal)) ≠
      DictRDD.mk [[[.int 1], [.int 2]]] ["x", "y"] :=
  ⟨rfl, by decide⟩

theorem map_pack_accumulated (l : List (List β)) :
    l.map _pack_accumulated = l := by
  induction l with
  | nil => rfl
  | cons a rest ih =>
    show _pack_accumulated a :: rest.map _pack_accumulated = a :: rest
    rw [ih]
    rfl

theorem _block_tuple_go_none (xs : List (List β)) :
    ∀ (i : Nat) (bt : List (List β)),
      _block_tuple_go none xs i bt =
        [(xs.foldl (fun b t => btAppend t b) bt).map _pack_accumulated] := by
  induction xs with
  | nil => intro i bt; rfl
  | cons t rest ih =>
    intro i bt
    rw [_block_tuple_go, if_neg (by simp [blockFull])]
    rw [ih (i + 1) (btAppend t bt), List.foldl_cons]

theorem btAppend_length (x : List β) (bt : List (List β))
    (h : x.length = bt.length) :
    (btAppend x bt).length = bt.length := by
  simp only [btAppend, List.length_append, List.length_zipWith,
    List.length_drop, h]
  omega

theorem btAppend_getElem (dflt : β) (x : List β) (bt : List (List β))
    (h : x.length = bt.length) (j : Nat) (hj : j < bt.length) :
    (btAppend x bt)[j]? =
      (bt[j]?).map (fun col => col ++ [x.getD j dflt]) := by
  have hdrop : bt.drop x.length = [] := by
    rw [h]
    exact List.drop_length bt
  have hxj : j < x.length := by omega
  rw [btAppend, hdrop, List.append_nil, List.getElem?_zipWith,
    List.getElem?_eq_getElem hxj, List.getElem?_eq_getElem hj]
  simp [List.getD_eq_getElem x dflt hxj, List.getElem?_eq_getElem hxj]

theorem foldl_btAppend_length (xs : List (List β)) :
    ∀ (bt : List (List β)), (∀ x ∈ xs, x.length = bt.length) →
      (xs.foldl (fun b t => btAppend t b) bt).length = bt.length := by
  induction xs with
  | nil => intro bt _; rfl
  | cons x rest ih =>
    intro bt h
    have hx := h x (by simp)
    have hlen1 : (btAppend x bt).length = bt.length := btAppend_length x bt hx
    have h2 : ∀ y ∈ rest, y.length = (btAppend x bt).length := by
      intro y hy
      rw [hlen1]
      exact h y (by simp [hy])
    rw [List.foldl_cons, ih (btAppend x bt) h2, hlen1]

theorem foldl_btAppend_getElem (dflt : β) (xs : List (List β)) :
    ∀ (bt : List (List β)), (∀ x ∈ xs, x.length = bt.length) →
      ∀ (j : Nat), j < bt.length →
        (xs.foldl (fun b t => btAppend t b) bt)[j]? =
          (bt[j]?).map
            (fun col => col ++ xs.map (fun x => x.getD j dflt)) := by
  induction xs with
  | nil =>
    intro bt h j hj
    simp
  | cons x rest ih =>
    intro bt h j hj
    have hx := h x (by simp)
    have hlen1 : (btAppend x bt).length = bt.length := btAppend_length x bt hx
    have h2 : ∀ y ∈ rest, y.length = (btAppend x bt).length := by
      intro y hy
      rw [hlen1]
      exact h y (by simp [hy])
    rw [List.foldl_cons, ih (btAppend x bt) h2 j (by rw [hlen1]; exact hj),
      btAppend_getElem dflt x bt hx j hj]
    cases hbj : bt[j]? with
    | none => rfl
    | some col => simp

theorem optMap_items_map (ks : List String) (vss : List (List PyVal)) :
    optMap PyObj.items (vss.map (fun vs => PyObj.dict (ks.zip vs))) =
      some (vss.map (fun vs =>
        (ks.zip vs).map (fun kv => PyVal.pair (.str kv.1) kv.2))) := by
  induction vss with
  | nil => rfl
  | cons vs rest ih => simp [optMap, PyObj.items, ih]

theorem foldl_btAppend_transpose (dflt : β) (N : Nat) (r0 : List β)
    (rest : List (List β)) (h0 : r0.length = N)
    (h : ∀ x ∈ rest, x.length = N) :
    (r0 :: rest).foldl (fun b t => btAppend t b) (r0.map (fun _ => [])) =
      (List.range N).map
        (fun j => (r0 :: rest).map (fun x => x.getD j dflt)) := by
  have hbt0len : (r0.map (fun _ => ([] : List β))).length = N := by
    simp [h0]
  have hall : ∀ x ∈ r0 :: rest,
      x.length = (r0.map (fun _ => ([] : List β))).length := by
    intro x hx
    rw [hbt0len]
    rcases List.mem_cons.mp hx with h1 | h1
    · rw [h1]; exact h0
    · exact h x h1
  apply List.ext_getElem?
  intro j
  by_cases hj : j < N
  · rw [foldl_btAppend_getElem dflt _ _ hall j (by rw [hbt0len]; exact hj)]
    have hbt0j : (r0.map (fun _ => ([] : List β)))[j]? = some [] := by
      rw [List.getElem?_map, List.getElem?_eq_getElem (by omega)]
      rfl
    rw [hbt0j, List.getElem?_map, List.getElem?_range hj]
    simp
  · have hfl :
        ((r0 :: rest).foldl (fun b t => btAppend t b)
          (r0.map (fun _ => []))).length = N := by
      rw [foldl_btAppend_length _ _ hall, hbt0len]
    rw [List.getElem?_eq_none (by omega)]
    rw [List.getElem?_eq_none (by simp; omega)]

/-- C5 amended: when the first element is a dict, the dispatcher does
extract its keys as the column schema, but it converts every record via
`x.items()` into the tuple of its `(key, value)` pair objects — not the
tuple of its bare values — and builds the `DictRDD` over those pair
tuples bound to that schema, with the default (unset) batch size.  For a
single partition of uniform-key dict records, column j of the single
emitted Columnar Batch holds every record's j-th `(key, value)` pair, in
record order. -/
theorem pyBlock_dict_spec (ks : List String) (vss : List (List PyVal))
    (hne : vss ≠ []) (hlen : ∀ vs ∈ vss, vs.length = ks.length) :
    pyBlock [vss.map (fun vs => PyObj.dict (ks.zip vs))] none =
      .ok (.dictResult (DictRDD.mk
        [(List.range ks.length).map
          (fun j => vss.map (fun vs =>
            PyVal.pair (.str (ks.getD j "")) (vs.getD j (.int 0))))]
        ks)) := by
  obtain ⟨vs0, vrest, hv⟩ := List.exists_cons_of_ne_nil hne
  subst hv
  have hvs0 : vs0.length = ks.length := hlen vs0 (by simp)
  have hILlen : ∀ vs ∈ vs0 :: vrest,
      ((ks.zip vs).map (fun kv => PyVal.pair (.str kv.1) kv.2)).length =
        ks.length := by
    intro vs hvsm
    rw [List.length_map, List.length_zip, hlen vs hvsm, Nat.min_self]
  have hcols : (List.range ks.length).map
      (fun j => ((ks.zip vs0).map (fun kv => PyVal.pair (.str kv.1) kv.2) ::
        vrest.map (fun vs =>
          (ks.zip vs).map (fun kv => PyVal.pair (.str kv.1) kv.2))).map
        (fun x => x.getD j (PyVal.int 0))) =
      (List.range ks.length).map
        (fun j => (vs0 :: vrest).map (fun vs =>
          PyVal.pair (.str (ks.getD j "")) (vs.getD j (.int 0)))) := by
    apply List.map_congr_left
    intro j hj
    have hjN : j < ks.length := List.mem_range.mp hj
    have hone : ∀ vs ∈ vs0 :: vrest,
        ((ks.zip vs).map
          (fun kv => PyVal.pair (.str kv.1) kv.2)).getD j (PyVal.int 0) =
          PyVal.pair (.str (ks.getD j "")) (vs.getD j (.int 0)) := by
      intro vs hvsm
      have hjI : j < ((ks.zip vs).map
          (fun kv => PyVal.pair (.str kv.1) kv.2)).length := by
        rw [hILlen vs hvsm]
        exact hjN
      have hjv : j < vs.length := by
        rw [hlen vs hvsm]
        exact hjN
      rw [List.getD_eq_getElem _ _ hjI, List.getElem_map, List.getElem_zip,
        List.getD_eq_getElem ks "" hjN, List.getD_eq_getElem vs _ hjv]
    simp only [List.map_cons, List.map_map]
    rw [hone vs0 (by simp)]
    congr 1
    apply List.map_congr_left
    intro vs hv
    simpa [Function.comp] using hone vs (by simp [hv])
  have hBT : _block_tuple ((vs0 :: vrest).map (fun vs =>
        (ks.zip vs).map (fun kv => PyVal.pair (.str kv.1) kv.2))) none =
      .ok [(List.range ks.length).map
        (fun j => (vs0 :: vrest).map (fun vs =>
          PyVal.pair (.str (ks.getD j "")) (vs.getD j (.int 0))))] := by
    rw [List.map_cons]
    rw [show _block_tuple
        ((ks.zip vs0).map (fun kv => PyVal.pair (.str kv.1) kv.2) ::
          vrest.map (fun vs =>
            (ks.zip vs).map (fun kv => PyVal.pair (.str kv.1) kv.2))) none =
      .ok (_block_tuple_go none
        ((ks.zip vs0).map (fun kv => PyVal.pair (.str kv.1) kv.2) ::
          vrest.map (fun vs =>
            (ks.zip vs).map (fun kv => PyVal.pair (.str kv.1) kv.2))) 0
        (((ks.zip vs0).map
          (fun kv => PyVal.pair (.str kv.1) kv.2)).map (fun _ => [])))
      from rfl]
    rw [_block_tuple_go_none, map_pack_accumulated]
    rw [foldl_btAppend_transpose (PyVal.int 0) ks.length _ _
      (hILlen vs0 (by simp))
      (by
        intro x hx
        obtain ⟨vs, hvsm, hvx⟩ := List.mem_map.mp hx
        rw [← hvx]
        exact hILlen vs (by simp [hvsm]))]
    rw [hcols]
  have hA : optMap (fun p => optMap PyObj.items p)
      [(vs0 :: vrest).map (fun vs => PyObj.dict (ks.zip vs))] =
      some [(vs0 :: vrest).map (fun vs =>
        (ks.zip vs).map (fun kv => PyVal.pair (.str kv.1) kv.2))] := by
    simp [optMap, optMap_items_map, PyObj.items]
  have hB : exceptMap (fun p => _block_tuple p none)
      [(vs0 :: vrest).map (fun vs =>
        (ks.zip vs).map (fun kv => PyVal.pair (.str kv.1) kv.2))] =
      .ok [[(List.range ks.length).map
        (fun j => (vs0 :: vrest).map (fun vs =>
          PyVal.pair (.str (ks.getD j "")) (vs.getD j (.int 0))))]] := by
    rw [exceptMap, hBT]
    rfl
  have hkeys : (ks.zip vs0).map Prod.fst = ks :=
    List.map_fst_zip ks vs0 (by omega)
  have hmake : DictRDD.make
      ([[(List.range ks.length).map
        (fun j => (vs0 :: vrest).map (fun vs =>
          PyVal.pair (.str (ks.getD j "")) (vs.getD j (.int 0))))]] :
            List (List (List (List PyVal)))).flatten
      ((ks.zip vs0).map Prod.fst) =
      .ok (DictRDD.mk
        [(List.range ks.length).map
          (fun j => (vs0 :: vrest).map (fun vs =>
            PyVal.pair (.str (ks.getD j "")) (vs.getD j (.int 0))))] ks) := by
    rw [hkeys]
    simp only [List.flatten_cons, List.flatten_nil, List.append_nil]
    rw [DictRDD.make]
    rw [if_pos (by simp)]
  have hhead :
      (([(vs0 :: vrest).map (fun vs => PyObj.dict (ks.zip vs))] :
        List (List PyObj)).flatten).head? =
        some (PyObj.dict (ks.zip vs0)) := by
    simp
  rw [pyBlock]
  simp only [hhead, hA, hB, hmake]

/-- C5 amended witness: one record `dict x:1 y:2` — schema `(x, y)`, the
packed column Batches hold the `(key, value)` pairs. -/
theorem pyBlock_dict_spec_witness :
    pyBlock [[.dict [("x", .int 1), ("y", .int 2)]]] none =
      .ok (.dictResult (DictRDD.mk
        [[[.pair (.str "x") (.int 1)], [.pair (.str "y") (.int 2)]]]
        ["x", "y"])) :=
  pyBlock_dict_spec ["x", "y"] [[.int 1, .int 2]] (by decide) (by decide)
